import Mathlib

/-!
Verification of the EIS stack simulator core (`eis_ui_study.py`).

The embedding models the numeric core over exact reals and complexes:
`cell_impedance` is the per-frequency Randles + Warburg formula, the stack
curve is the pointwise series sum of per-cell curves, and the diagnostics
are the nearest-to-1Hz magnitude and the index-based tau estimate.
numpy's `np.sqrt` on complex input is the principal complex square root,
embedded as `csqrt`; `np.argmax` / `np.argmin` return the first index at
which the extremum is attained, embedded as `argmax` / `argmin`.
-/

namespace EIS

/-- Per-cell physical parameters: series resistance, charge-transfer
resistance, double-layer capacitance, Warburg coefficient. -/
structure CellParameters where
  Rs : ℝ
  Rct : ℝ
  Cdl : ℝ
  sigma : ℝ

/-- Principal complex square root (the branch numpy's `np.sqrt` computes on
complex input): nonnegative real part, and the imaginary part carries the
sign of `z.im`. -/
noncomputable def csqrt (z : ℂ) : ℂ :=
  ⟨Real.sqrt ((Complex.abs z + z.re) / 2),
   (if z.im < 0 then -1 else 1) * Real.sqrt ((Complex.abs z - z.re) / 2)⟩

/-- Angular frequency: `omega = 2 * np.pi * freq`. -/
noncomputable def omega (f : ℝ) : ℝ := 2 * Real.pi * f

/-- Capacitive impedance: `Zc = 1 / (1j * omega * Cdl)`. -/
noncomputable def Zc (f Cdl : ℝ) : ℂ := 1 / (Complex.I * omega f * Cdl)

/-- Warburg element: `Zw = sigma / np.sqrt(1j * omega)`. -/
noncomputable def Zw (f sigma : ℝ) : ℂ := sigma / csqrt (Complex.I * omega f)

/-- Parallel combination: `Z_parallel = 1 / (1/Rct + 1/Zc)`. -/
noncomputable def Z_parallel (f Rct Cdl : ℝ) : ℂ :=
  1 / (1 / (Rct : ℂ) + 1 / Zc f Cdl)

/-- Source formula `cell_impedance(freq, Rs, Rct, Cdl, sigma) = Rs + Z_parallel + Zw`,
per frequency sample. -/
noncomputable def cell_impedance (f : ℝ) (p : CellParameters) : ℂ :=
  p.Rs + Z_parallel f p.Rct p.Cdl + Zw f p.sigma

/-- The vectorised call `cell_impedance(freq, ...)` on a frequency grid:
one complex impedance per grid entry. -/
noncomputable def cellCurve (grid : List ℝ) (p : CellParameters) : List ℂ :=
  grid.map (fun f => cell_impedance f p)

/-- Basic facts about `csqrt` at a purely imaginary point `I * ω`, `ω > 0`:
there it is `√(ω/2) * (1 + I)`. -/
lemma I_mul_ofReal_re (w : ℝ) : (Complex.I * (w : ℂ)).re = 0 := by
  simp

lemma I_mul_ofReal_im (w : ℝ) : (Complex.I * (w : ℂ)).im = w := by
  simp

lemma abs_I_mul_ofReal (w : ℝ) (hw : 0 ≤ w) : Complex.abs (Complex.I * (w : ℂ)) = w := by
  rw [map_mul, Complex.abs_I, Complex.abs_ofReal, one_mul, abs_of_nonneg hw]

lemma csqrt_I_mul (w : ℝ) (hw : 0 < w) :
    csqrt (Complex.I * (w : ℂ)) = ⟨Real.sqrt (w / 2), Real.sqrt (w / 2)⟩ := by
  rw [csqrt, abs_I_mul_ofReal w hw.le, I_mul_ofReal_re, I_mul_ofReal_im]
  rw [if_neg (by linarith), one_mul]
  norm_num

lemma csqrt_I_mul_sq (w : ℝ) (hw : 0 < w) :
    csqrt (Complex.I * (w : ℂ)) ^ 2 = Complex.I * (w : ℂ) := by
  rw [csqrt_I_mul w hw, sq]
  have hs : Real.sqrt (w / 2) ^ 2 = w / 2 := Real.sq_sqrt (by linarith)
  apply Complex.ext
  · simp [Complex.mul_re]
  · simp only [Complex.mul_im, Complex.I_re, Complex.I_im, Complex.ofReal_re,
      Complex.ofReal_im]
    nlinarith [hs]

lemma csqrt_I_mul_re_pos (w : ℝ) (hw : 0 < w) :
    0 < (csqrt (Complex.I * (w : ℂ))).re := by
  rw [csqrt_I_mul w hw]
  exact Real.sqrt_pos.mpr (by linarith)

lemma csqrt_I_mul_im_pos (w : ℝ) (hw : 0 < w) :
    0 < (csqrt (Complex.I * (w : ℂ))).im := by
  rw [csqrt_I_mul w hw]
  exact Real.sqrt_pos.mpr (by linarith)

lemma omega_pos {f : ℝ} (hf : 0 < f) : 0 < omega f := by
  have := Real.pi_pos
  unfold omega; nlinarith

/-- Embedding of `np.sum(Z_cells, axis=0)` on a nonempty list of equal-length curves:
pointwise complex sum.  (On the empty list numpy returns the scalar `0.0`;
the empty case is only reached through `computeStackE` below, which is what
the error-handling claims are about.) -/
noncomputable def sumCurves : List (List ℂ) → List ℂ
  | [] => []
  | [c] => c
  | c :: c2 :: cs => List.zipWith (· + ·) c (sumCurves (c2 :: cs))

/-- The stack curve of `main`: `Z_stack = np.sum(Z_cells, axis=0)` where
`Z_cells = [cell_impedance(freq, ...params i...) for i in range(num_cells)]`. -/
noncomputable def Z_stack (grid : List ℝ) (ps : List CellParameters) : List ℂ :=
  sumCurves (ps.map (cellCurve grid))

/-- First index attaining the minimum of a list (numpy `np.argmin`:
ties resolve to the first occurrence; `0` on the empty list, where numpy
instead raises). -/
noncomputable def argmin : List ℝ → ℕ
  | [] => 0
  | [_] => 0
  | x :: y :: ys =>
    if x ≤ (y :: ys).getD (argmin (y :: ys)) 0 then 0 else argmin (y :: ys) + 1

/-- First index attaining the maximum of a list (numpy `np.argmax`:
ties resolve to the first occurrence). -/
noncomputable def argmax : List ℝ → ℕ
  | [] => 0
  | [_] => 0
  | x :: y :: ys =>
    if (y :: ys).getD (argmax (y :: ys)) 0 ≤ x then 0 else argmax (y :: ys) + 1

/-- Source line `idx_1Hz = np.argmin(np.abs(freq - 1))`. -/
noncomputable def idx1Hz (freq : List ℝ) : ℕ := argmin (freq.map (fun f => |f - 1|))

/-- The 1 Hz diagnostic `np.abs(Z[idx_1Hz])` for one cell curve. -/
noncomputable def magnitudeAt1Hz (freq : List ℝ) (curve : List ℂ) : ℝ :=
  Complex.abs (curve.getD (idx1Hz freq) 0)

/-- Source line `tau = (1 / (2 * np.pi)) * np.argmax(-Z.imag)`. -/
noncomputable def estimatedTau (curve : List ℂ) : ℝ :=
  (1 / (2 * Real.pi)) * (argmax (curve.map (fun z => -z.im)) : ℝ)

/-- Python-level exceptions the source can actually raise, plus the
`DomainError` the spec postulates (never raised by the code). -/
inductive PyError where
  | zeroDivision
  | domainError
deriving DecidableEq

/-- The function `cell_impedance` with Python exception semantics: the scalar division
`1/Rct` raises `ZeroDivisionError` when `Rct == 0`; every other operation is
numpy array arithmetic, which yields values (inf/nan) without raising.  The
source performs no input validation of its own. -/
noncomputable def cell_impedanceE (grid : List ℝ) (p : CellParameters) :
    Except PyError (List ℂ) :=
  if p.Rct = 0 then .error .zeroDivision else .ok (cellCurve grid p)

/-- The per-cell loop of `main`: each cell's curve is computed in order, and
a Python exception in one call aborts the whole loop. -/
noncomputable def cellCurvesE (grid : List ℝ) :
    List CellParameters → Except PyError (List (List ℂ))
  | [] => .ok []
  | p :: ps =>
    match cell_impedanceE grid p with
    | .error e => .error e
    | .ok c =>
      match cellCurvesE grid ps with
      | .error e => .error e
      | .ok cs => .ok (c :: cs)

/-- The stack computation of `main` with exception semantics: run the
per-cell loop, then sum the curves (`np.sum` never raises here). -/
noncomputable def computeStackE (grid : List ℝ) (ps : List CellParameters) :
    Except PyError (List (List ℂ) × List ℂ) :=
  match cellCurvesE grid ps with
  | .error e => .error e
  | .ok cs => .ok (cs, sumCurves cs)

/-- The fixed UI frequency grid `np.logspace(-1, 5, 300)`: 300 samples
`10 ^ (-1 + 6*k/299)` for `k = 0, ..., 299`. -/
noncomputable def freqGrid : List ℝ :=
  (List.range 300).map (fun (k : ℕ) => (10 : ℝ) ^ (-1 + (k : ℝ) * 6 / 299))

/-- The per-cell parameter list built by the `for i in range(num_cells)`
loop of `main`, with `ps i` the slider values of cell `i`. -/
noncomputable def uiCellParams (n : ℕ) (ps : ℕ → CellParameters) : List CellParameters :=
  (List.range n).map ps

/-- Spec-side single-cell formula (§4.1, claim C1):
`Rs + 1/(1/Rct + j*ω*Cdl) + σ/sqrt(j*ω)` with the principal square root. -/
noncomputable def specImpedance (f : ℝ) (p : CellParameters) : ℂ :=
  p.Rs + 1 / (1 / (p.Rct : ℂ) + Complex.I * omega f * p.Cdl)
    + p.sigma / csqrt (Complex.I * omega f)

/-- Reading `getD` through `map`, in bounds. -/
lemma getD_map {α β : Type} (g : α → β) (d : α) (e : β) :
    ∀ (l : List α) (k : ℕ), k < l.length → (l.map g).getD k e = g (l.getD k d)
  | a :: l, 0, _ => by simp
  | a :: l, k + 1, h => by
    simp only [List.map_cons, List.getD_cons_succ]
    exact getD_map g d e l k (by simpa using h)

/-- Reading `getD` through `zipWith (+)`, in bounds on both sides. -/
lemma getD_zipWith (dc : ℂ) :
    ∀ (as bs : List ℂ) (k : ℕ), k < as.length → k < bs.length →
      (List.zipWith (· + ·) as bs).getD k dc = as.getD k dc + bs.getD k dc
  | a :: as, b :: bs, 0, _, _ => by simp
  | a :: as, b :: bs, k + 1, ha, hb => by
    simp only [List.zipWith_cons_cons, List.getD_cons_succ]
    exact getD_zipWith dc as bs k (by simpa using ha) (by simpa using hb)

lemma sumCurves_length (L : ℕ) :
    ∀ (cs : List (List ℂ)), cs ≠ [] → (∀ c ∈ cs, c.length = L) →
      (sumCurves cs).length = L
  | [c], _, hc => by simpa [sumCurves] using hc c (by simp)
  | c :: c2 :: cs, _, hc => by
    have h2 : (sumCurves (c2 :: cs)).length = L :=
      sumCurves_length L (c2 :: cs) (by simp) (fun d hd => hc d (by simp [hd]))
    simp only [sumCurves, List.length_zipWith, h2, hc c (by simp)]
    exact min_self L

lemma sumCurves_getD (L : ℕ) (k : ℕ) (hk : k < L) :
    ∀ (cs : List (List ℂ)), cs ≠ [] → (∀ c ∈ cs, c.length = L) →
      (sumCurves cs).getD k 0 = (cs.map (fun c => c.getD k 0)).sum
  | [c], _, _ => by simp [sumCurves]
  | c :: c2 :: cs, _, hc => by
    have h2 : (sumCurves (c2 :: cs)).length = L :=
      sumCurves_length L (c2 :: cs) (by simp) (fun d hd => hc d (by simp [hd]))
    have hrec := sumCurves_getD L k hk (c2 :: cs) (by simp)
      (fun d hd => hc d (by simp [hd]))
    have hzip := getD_zipWith 0 c (sumCurves (c2 :: cs)) k
      (by rw [hc c (by simp)]; exact hk) (by rw [h2]; exact hk)
    simp only [sumCurves, hzip, hrec, List.map_cons, List.sum_cons]

/-- The result of `argmax` on a nonempty list is a valid index. -/
lemma argmax_lt_length : ∀ (l : List ℝ), l ≠ [] → argmax l < l.length
  | [x], _ => by simp [argmax]
  | x :: y :: ys, _ => by
    rw [argmax]
    split
    · simp
    · have := argmax_lt_length (y :: ys) (by simp)
      simp only [List.length_cons] at this ⊢
      omega

/-- The entry at `argmax` attains the maximum, and strictly exceeds every earlier entry
(first-occurrence tie-breaking, as numpy's `np.argmax`). -/
lemma argmax_spec : ∀ (l : List ℝ), l ≠ [] →
    (∀ j, j < l.length → l.getD j 0 ≤ l.getD (argmax l) 0) ∧
    (∀ j, j < argmax l → l.getD j 0 < l.getD (argmax l) 0)
  | [x], _ => by
    constructor
    · intro j hj
      have hj0 : j = 0 := by simp only [List.length_singleton] at hj; omega
      subst hj0
      simp [argmax]
    · intro j hj
      simp [argmax] at hj
  | x :: y :: ys, _ => by
    obtain ⟨ih1, ih2⟩ := argmax_spec (y :: ys) (by simp)
    rw [argmax]
    split
    case isTrue hle =>
      refine ⟨fun j hj => ?_, fun j hj => absurd hj (by simp)⟩
      match j with
      | 0 => simp
      | j + 1 =>
        simp only [List.getD_cons_succ, List.getD_cons_zero]
        exact le_trans (ih1 j (by simpa using hj)) hle
    case isFalse hlt =>
      push_neg at hlt
      constructor
      · intro j hj
        match j with
        | 0 => simpa using hlt.le
        | j + 1 =>
          simp only [List.getD_cons_succ]
          exact ih1 j (by simpa using hj)
      · intro j hj
        match j with
        | 0 => simpa using hlt
        | j + 1 =>
          simp only [List.getD_cons_succ]
          exact ih2 j (by omega)

/-- The result of `argmin` on a nonempty list is a valid index. -/
lemma argmin_lt_length : ∀ (l : List ℝ), l ≠ [] → argmin l < l.length
  | [x], _ => by simp [argmin]
  | x :: y :: ys, _ => by
    rw [argmin]
    split
    · simp
    · have := argmin_lt_length (y :: ys) (by simp)
      simp only [List.length_cons] at this ⊢
      omega

/-- The entry at `argmin` attains the minimum, and is strictly below every earlier entry
(first-occurrence tie-breaking, as numpy's `np.argmin`). -/
lemma argmin_spec : ∀ (l : List ℝ), l ≠ [] →
    (∀ j, j < l.length → l.getD (argmin l) 0 ≤ l.getD j 0) ∧
    (∀ j, j < argmin l → l.getD (argmin l) 0 < l.getD j 0)
  | [x], _ => by
    constructor
    · intro j hj
      have hj0 : j = 0 := by simp only [List.length_singleton] at hj; omega
      subst hj0
      simp [argmin]
    · intro j hj
      simp [argmin] at hj
  | x :: y :: ys, _ => by
    obtain ⟨ih1, ih2⟩ := argmin_spec (y :: ys) (by simp)
    rw [argmin]
    split
    case isTrue hle =>
      refine ⟨fun j hj => ?_, fun j hj => absurd hj (by simp)⟩
      match j with
      | 0 => simp
      | j + 1 =>
        simp only [List.getD_cons_succ, List.getD_cons_zero]
        exact le_trans hle (ih1 j (by simpa using hj))
    case isFalse hlt =>
      push_neg at hlt
      constructor
      · intro j hj
        match j with
        | 0 => simpa using hlt.le
        | j + 1 =>
          simp only [List.getD_cons_succ]
          exact ih1 j (by simpa using hj)
      · intro j hj
        match j with
        | 0 => simpa using hlt
        | j + 1 =>
          simp only [List.getD_cons_succ]
          exact ih2 j (by omega)

lemma Zc_inv_eq (f Cdl : ℝ) :
    1 / Zc f Cdl = Complex.I * (omega f : ℂ) * (Cdl : ℂ) := by
  rw [Zc, one_div_one_div]

/-- The parallel combination as written in the code equals the flattened
form `1 / (1/Rct + j*ω*Cdl)`. -/
lemma Z_parallel_eq (f Rct Cdl : ℝ) :
    Z_parallel f Rct Cdl = 1 / (1 / (Rct : ℂ) + Complex.I * (omega f : ℂ) * (Cdl : ℂ)) := by
  rw [Z_parallel, Zc_inv_eq]

lemma denom_eq (Rct w Cdl : ℝ) :
    1 / (Rct : ℂ) + Complex.I * (w : ℂ) * (Cdl : ℂ) = (⟨1 / Rct, w * Cdl⟩ : ℂ) := by
  rw [show (1 : ℂ) / (Rct : ℂ) = ((1 / Rct : ℝ) : ℂ) by push_cast; ring]
  apply Complex.ext <;>
    simp [Complex.mul_re, Complex.mul_im]

lemma inv_mk_re_pos {a b : ℝ} (ha : 0 < a) (hb : 0 < b) :
    0 < ((⟨a, b⟩ : ℂ)⁻¹).re := by
  rw [Complex.inv_re, Complex.normSq_mk]
  exact div_pos ha (by nlinarith)

lemma inv_mk_im_neg {a b : ℝ} (ha : 0 < a) (hb : 0 < b) :
    ((⟨a, b⟩ : ℂ)⁻¹).im < 0 := by
  rw [Complex.inv_im, Complex.normSq_mk]
  apply div_neg_of_neg_of_pos (by nlinarith) (by nlinarith)

lemma Z_parallel_re_pos {f Rct Cdl : ℝ} (hf : 0 < f) (hRct : 0 < Rct) (hCdl : 0 < Cdl) :
    0 < (Z_parallel f Rct Cdl).re := by
  rw [Z_parallel_eq, denom_eq, one_div]
  exact inv_mk_re_pos (by positivity) (mul_pos (omega_pos hf) hCdl)

lemma Z_parallel_im_neg {f Rct Cdl : ℝ} (hf : 0 < f) (hRct : 0 < Rct) (hCdl : 0 < Cdl) :
    (Z_parallel f Rct Cdl).im < 0 := by
  rw [Z_parallel_eq, denom_eq, one_div]
  exact inv_mk_im_neg (by positivity) (mul_pos (omega_pos hf) hCdl)

lemma Zw_re (f s : ℝ) (hf : 0 < f) :
    (Zw f s).re = s / (2 * Real.sqrt (omega f / 2)) := by
  have hw := omega_pos hf
  have ht : 0 < Real.sqrt (omega f / 2) := Real.sqrt_pos.mpr (by linarith)
  rw [Zw, csqrt_I_mul _ hw, Complex.div_re, Complex.normSq_mk]
  simp only [Complex.ofReal_re, Complex.ofReal_im]
  field_simp
  have h1 : Real.sqrt (omega f) * Real.sqrt (omega f) = omega f := Real.mul_self_sqrt hw.le
  have h2 : Real.sqrt 2 * Real.sqrt 2 = (2 : ℝ) := Real.mul_self_sqrt (by norm_num)
  linear_combination (2 * s) * h1 - s * omega f * h2

lemma Zw_im (f s : ℝ) (hf : 0 < f) :
    (Zw f s).im = -(s / (2 * Real.sqrt (omega f / 2))) := by
  have hw := omega_pos hf
  have ht : 0 < Real.sqrt (omega f / 2) := Real.sqrt_pos.mpr (by linarith)
  rw [Zw, csqrt_I_mul _ hw, Complex.div_im, Complex.normSq_mk]
  simp only [Complex.ofReal_re, Complex.ofReal_im]
  field_simp
  have h1 : Real.sqrt (omega f) * Real.sqrt (omega f) = omega f := Real.mul_self_sqrt hw.le
  have h2 : Real.sqrt 2 * Real.sqrt 2 = (2 : ℝ) := Real.mul_self_sqrt (by norm_num)
  linear_combination (2 * s) * h1 - s * omega f * h2

lemma abs_csqrt_I_mul (w : ℝ) (hw : 0 < w) :
    Complex.abs (csqrt (Complex.I * (w : ℂ))) = Real.sqrt w := by
  rw [csqrt_I_mul _ hw, Complex.abs_apply, Complex.normSq_mk]
  congr 1
  have h2 : Real.sqrt (w / 2) * Real.sqrt (w / 2) = w / 2 :=
    Real.mul_self_sqrt (by linarith)
  linarith

lemma abs_Zw (f s : ℝ) (hf : 0 < f) (hs : 0 ≤ s) :
    Complex.abs (Zw f s) = s / Real.sqrt (omega f) := by
  rw [Zw, map_div₀, abs_csqrt_I_mul _ (omega_pos hf), Complex.abs_ofReal, abs_of_nonneg hs]

lemma I_mul_mul_eq (w Cdl : ℝ) :
    Complex.I * (w : ℂ) * (Cdl : ℂ) = (⟨0, w * Cdl⟩ : ℂ) := by
  apply Complex.ext <;> simp [Complex.mul_re, Complex.mul_im]

lemma Zc_re_zero (f Cdl : ℝ) : (Zc f Cdl).re = 0 := by
  rw [Zc, I_mul_mul_eq, one_div, Complex.inv_re, Complex.normSq_mk]
  simp

lemma abs_Zc (f Cdl : ℝ) (hf : 0 < f) (hCdl : 0 < Cdl) :
    Complex.abs (Zc f Cdl) = 1 / (omega f * Cdl) := by
  rw [Zc, map_div₀, map_one, map_mul, map_mul, Complex.abs_I, Complex.abs_ofReal,
    Complex.abs_ofReal, one_mul, abs_of_nonneg (omega_pos hf).le, abs_of_nonneg hCdl.le]

lemma cell_impedance_re (f : ℝ) (p : CellParameters) :
    (cell_impedance f p).re
      = p.Rs + (Z_parallel f p.Rct p.Cdl).re + (Zw f p.sigma).re := by
  rw [cell_impedance]
  simp [Complex.add_re]

lemma cell_impedance_im (f : ℝ) (p : CellParameters) :
    (cell_impedance f p).im
      = (Z_parallel f p.Rct p.Cdl).im + (Zw f p.sigma).im := by
  rw [cell_impedance]
  simp [Complex.add_im]

lemma omega_strictMono {f1 f2 : ℝ} (hf1 : 0 < f1) (h12 : f1 < f2) :
    omega f1 < omega f2 := by
  have := Real.pi_pos
  unfold omega
  nlinarith

lemma Z_stack_getD (grid : List ℝ) (ps : List CellParameters) (hps : ps ≠ [])
    (k : ℕ) (hk : k < grid.length) :
    (Z_stack grid ps).getD k 0
      = (ps.map (fun p => cell_impedance (grid.getD k 0) p)).sum := by
  rw [Z_stack, sumCurves_getD grid.length k hk _ (by simpa using hps)
    (fun c hc => by obtain ⟨q, _, rfl⟩ := List.mem_map.mp hc; simp [cellCurve])]
  rw [List.map_map]
  congr 1
  apply List.map_congr_left
  intro q _
  simp only [Function.comp_apply, cellCurve]
  exact getD_map (fun f => cell_impedance f q) 0 0 grid k hk

/-- C1: for every frequency `f > 0` and strictly positive cell parameters,
the single-cell impedance equals `Rs + 1/(1/Rct + j·ω·Cdl) + σ/√(j·ω)` with
`ω = 2π·f`, where `√(j·ω)` is the principal complex square root: it squares
to `j·ω` and has strictly positive real and imaginary parts. -/
theorem C1_single_cell_formula (f : ℝ) (p : CellParameters) (hf : 0 < f)
    (hRs : 0 < p.Rs) (hRct : 0 < p.Rct) (hCdl : 0 < p.Cdl) (hsig : 0 < p.sigma) :
    omega f = 2 * Real.pi * f ∧
    cell_impedance f p = specImpedance f p ∧
    specImpedance f p
        = (p.Rs : ℂ) + 1 / (1 / (p.Rct : ℂ) + Complex.I * (omega f : ℂ) * (p.Cdl : ℂ))
          + (p.sigma : ℂ) / csqrt (Complex.I * (omega f : ℂ)) ∧
    csqrt (Complex.I * (omega f : ℂ)) ^ 2 = Complex.I * (omega f : ℂ) ∧
    0 < (csqrt (Complex.I * (omega f : ℂ))).re ∧
    0 < (csqrt (Complex.I * (omega f : ℂ))).im := by
  refine ⟨rfl, ?_, rfl, csqrt_I_mul_sq _ (omega_pos hf),
    csqrt_I_mul_re_pos _ (omega_pos hf), csqrt_I_mul_im_pos _ (omega_pos hf)⟩
  simp only [cell_impedance, specImpedance, Zw, Z_parallel_eq]

/-- Witness for C1 at `f = 1`, `p = (0.1, 1, 10⁻⁴, 0.1)`. -/
theorem C1_single_cell_formula_witness :
    cell_impedance 1 ⟨1/10, 1, 1/10000, 1/10⟩ = specImpedance 1 ⟨1/10, 1, 1/10000, 1/10⟩ :=
  (C1_single_cell_formula 1 ⟨1/10, 1, 1/10000, 1/10⟩ (by norm_num)
    (by norm_num : (0:ℝ) < 1/10) (by norm_num : (0:ℝ) < 1)
    (by norm_num : (0:ℝ) < 1/10000) (by norm_num : (0:ℝ) < 1/10)).2.1

/-- C9: for `f > 0` and strictly positive parameters, both the parallel RC
branch and the Warburg branch have strictly positive real part and strictly
negative imaginary part, so `Re Z > Rs`, `Im Z < 0` and `-Im Z > 0`. -/
theorem C9_re_above_Rs_im_neg (f : ℝ) (p : CellParameters) (hf : 0 < f)
    (hRs : 0 < p.Rs) (hRct : 0 < p.Rct) (hCdl : 0 < p.Cdl) (hsig : 0 < p.sigma) :
    0 < (Z_parallel f p.Rct p.Cdl).re ∧ (Z_parallel f p.Rct p.Cdl).im < 0 ∧
    0 < (Zw f p.sigma).re ∧ (Zw f p.sigma).im < 0 ∧
    p.Rs < (cell_impedance f p).re ∧ (cell_impedance f p).im < 0 ∧
    0 < -(cell_impedance f p).im := by
  have hw := omega_pos hf
  have ht : 0 < Real.sqrt (omega f / 2) := Real.sqrt_pos.mpr (by linarith)
  have hzp_re := Z_parallel_re_pos hf hRct hCdl
  have hzp_im := Z_parallel_im_neg hf hRct hCdl
  have hzw_re : 0 < (Zw f p.sigma).re := by
    rw [Zw_re _ _ hf]
    exact div_pos hsig (by linarith)
  have hzw_im : (Zw f p.sigma).im < 0 := by
    rw [Zw_im _ _ hf]
    have : 0 < p.sigma / (2 * Real.sqrt (omega f / 2)) := div_pos hsig (by linarith)
    linarith
  refine ⟨hzp_re, hzp_im, hzw_re, hzw_im, ?_, ?_, ?_⟩
  · rw [cell_impedance_re]; linarith
  · rw [cell_impedance_im]; linarith
  · rw [cell_impedance_im]; linarith

/-- Witness for C9 at `f = 1`, `p = (0.1, 1, 10⁻⁴, 0.1)`. -/
theorem C9_re_above_Rs_im_neg_witness :
    (⟨1/10, 1, 1/10000, 1/10⟩ : CellParameters).Rs
        < (cell_impedance 1 ⟨1/10, 1, 1/10000, 1/10⟩).re ∧
    (cell_impedance 1 ⟨1/10, 1, 1/10000, 1/10⟩).im < 0 :=
  ⟨(C9_re_above_Rs_im_neg 1 ⟨1/10, 1, 1/10000, 1/10⟩ (by norm_num)
      (by norm_num : (0:ℝ) < 1/10) (by norm_num : (0:ℝ) < 1)
      (by norm_num : (0:ℝ) < 1/10000) (by norm_num : (0:ℝ) < 1/10)).2.2.2.2.1,
   (C9_re_above_Rs_im_neg 1 ⟨1/10, 1, 1/10000, 1/10⟩ (by norm_num)
      (by norm_num : (0:ℝ) < 1/10) (by norm_num : (0:ℝ) < 1)
      (by norm_num : (0:ℝ) < 1/10000) (by norm_num : (0:ℝ) < 1/10)).2.2.2.2.2.1⟩

/-- C8: the capacitive branch is purely imaginary with strictly decreasing
magnitude in `f`; the Warburg term has real and imaginary parts of equal
absolute value, both strictly decreasing in magnitude as `f` increases. -/
theorem C8_branch_shapes (p : CellParameters) (f f1 f2 : ℝ)
    (hf : 0 < f) (hf1 : 0 < f1) (h12 : f1 < f2)
    (hCdl : 0 < p.Cdl) (hsig : 0 < p.sigma) :
    (Zc f p.Cdl).re = 0 ∧
    Complex.abs (Zc f2 p.Cdl) < Complex.abs (Zc f1 p.Cdl) ∧
    |(Zw f p.sigma).re| = |(Zw f p.sigma).im| ∧
    |(Zw f2 p.sigma).re| < |(Zw f1 p.sigma).re| ∧
    |(Zw f2 p.sigma).im| < |(Zw f1 p.sigma).im| := by
  have hf2 : 0 < f2 := lt_trans hf1 h12
  have hw1 := omega_pos hf1
  have hw2 := omega_pos hf2
  have hmono := omega_strictMono hf1 h12
  have ht1 : 0 < Real.sqrt (omega f1 / 2) := Real.sqrt_pos.mpr (by linarith)
  have ht2 : 0 < Real.sqrt (omega f2 / 2) := Real.sqrt_pos.mpr (by linarith)
  have hts : Real.sqrt (omega f1 / 2) < Real.sqrt (omega f2 / 2) :=
    Real.sqrt_lt_sqrt (by linarith) (by linarith)
  have key : |p.sigma / (2 * Real.sqrt (omega f2 / 2))|
      < |p.sigma / (2 * Real.sqrt (omega f1 / 2))| := by
    rw [abs_of_pos (div_pos hsig (by linarith)), abs_of_pos (div_pos hsig (by linarith))]
    apply div_lt_div_of_pos_left hsig (by linarith) (by linarith)
  refine ⟨Zc_re_zero f p.Cdl, ?_, ?_, ?_, ?_⟩
  · rw [abs_Zc _ _ hf1 hCdl, abs_Zc _ _ hf2 hCdl]
    exact one_div_lt_one_div_of_lt (mul_pos hw1 hCdl)
      (mul_lt_mul_of_pos_right hmono hCdl)
  · rw [Zw_re _ _ hf, Zw_im _ _ hf, abs_neg]
  · rw [Zw_re _ _ hf1, Zw_re _ _ hf2]
    exact key
  · rw [Zw_im _ _ hf1, Zw_im _ _ hf2, abs_neg, abs_neg]
    exact key

/-- Witness for C8 at `f = 1`, `f1 = 1`, `f2 = 2`, `p = (0.1, 1, 10⁻⁴, 0.1)`. -/
theorem C8_branch_shapes_witness :
    (Zc 1 (⟨1/10, 1, 1/10000, 1/10⟩ : CellParameters).Cdl).re = 0 ∧
    Complex.abs (Zc 2 (⟨1/10, 1, 1/10000, 1/10⟩ : CellParameters).Cdl)
      < Complex.abs (Zc 1 (⟨1/10, 1, 1/10000, 1/10⟩ : CellParameters).Cdl) :=
  ⟨(C8_branch_shapes ⟨1/10, 1, 1/10000, 1/10⟩ 1 1 2 (by norm_num) (by norm_num)
      (by norm_num) (by norm_num : (0:ℝ) < 1/10000) (by norm_num : (0:ℝ) < 1/10)).1,
   (C8_branch_shapes ⟨1/10, 1, 1/10000, 1/10⟩ 1 1 2 (by norm_num) (by norm_num)
      (by norm_num) (by norm_num : (0:ℝ) < 1/10000) (by norm_num : (0:ℝ) < 1/10)).2.1⟩

/-- C6: the per-cell curve has exactly one complex value per frequency
sample, and so does the stack curve for a nonempty cell list. -/
theorem C6_shape_invariant (grid : List ℝ) (p : CellParameters)
    (ps : List CellParameters) (hps : ps ≠ []) :
    (cellCurve grid p).length = grid.length ∧
    (Z_stack grid ps).length = grid.length := by
  refine ⟨by simp [cellCurve], ?_⟩
  rw [Z_stack]
  exact sumCurves_length grid.length _ (by simpa using hps)
    (fun c hc => by obtain ⟨q, _, rfl⟩ := List.mem_map.mp hc; simp [cellCurve])

/-- Witness for C6 on the one-point grid `[1]` with a single cell. -/
theorem C6_shape_invariant_witness :
    (cellCurve [1] ⟨1, 1, 1, 1⟩).length = ([1] : List ℝ).length ∧
    (Z_stack [1] [⟨1, 1, 1, 1⟩]).length = ([1] : List ℝ).length :=
  C6_shape_invariant [1] ⟨1, 1, 1, 1⟩ [⟨1, 1, 1, 1⟩] (by simp)

/-- C4: the stack curve at each in-range grid index is the exact complex sum
of the per-cell impedances there; in particular for two cells it is the sum
of the two cell curves at that index. -/
theorem C4_series_additivity (grid : List ℝ) (ps : List CellParameters)
    (p1 p2 : CellParameters) (k : ℕ) (hps : ps ≠ []) (hk : k < grid.length) :
    (Z_stack grid ps).getD k 0
        = (ps.map (fun p => cell_impedance (grid.getD k 0) p)).sum ∧
    (Z_stack grid [p1, p2]).getD k 0
        = (cellCurve grid p1).getD k 0 + (cellCurve grid p2).getD k 0 := by
  refine ⟨Z_stack_getD grid ps hps k hk, ?_⟩
  rw [Z_stack_getD grid [p1, p2] (by simp) k hk]
  simp only [List.map_cons, List.map_nil, List.sum_cons, List.sum_nil, add_zero,
    cellCurve]
  rw [getD_map (fun f => cell_impedance f p1) 0 0 grid k hk,
    getD_map (fun f => cell_impedance f p2) 0 0 grid k hk]

/-- Witness for C4 on the one-point grid `[1]` with two unit cells. -/
theorem C4_series_additivity_witness :
    (Z_stack [1] [⟨1, 1, 1, 1⟩, ⟨2, 1, 1, 1⟩]).getD 0 0
        = (cellCurve [1] ⟨1, 1, 1, 1⟩).getD 0 0 + (cellCurve [1] ⟨2, 1, 1, 1⟩).getD 0 0 :=
  (C4_series_additivity [1] [⟨1, 1, 1, 1⟩] ⟨1, 1, 1, 1⟩ ⟨2, 1, 1, 1⟩ 0
    (by simp) (by simp)).2

/-- C2: `estimatedTau` equals `k_peak / (2π)` where `k_peak` is the first
index at which `−Im` attains its maximum over the curve; it is a function of
that index alone, independent of the frequency value sampled there. -/
theorem C2_index_based_tau (curve : List ℂ) (hne : curve ≠ []) :
    estimatedTau curve = (argmax (curve.map (fun z => -z.im)) : ℝ) / (2 * Real.pi) ∧
    argmax (curve.map (fun z => -z.im)) < curve.length ∧
    (∀ j, j < curve.length →
      -(curve.getD j 0).im ≤ -(curve.getD (argmax (curve.map (fun z => -z.im))) 0).im) ∧
    (∀ j, j < argmax (curve.map (fun z => -z.im)) →
      -(curve.getD j 0).im < -(curve.getD (argmax (curve.map (fun z => -z.im))) 0).im) ∧
    (∀ c2 : List ℂ, argmax (c2.map (fun z => -z.im)) = argmax (curve.map (fun z => -z.im)) →
      estimatedTau c2 = estimatedTau curve) := by
  have hmapne : curve.map (fun z => -z.im) ≠ [] := by simpa using hne
  have hlen : argmax (curve.map (fun z => -z.im)) < curve.length := by
    have := argmax_lt_length _ hmapne
    simpa using this
  obtain ⟨h1, h2⟩ := argmax_spec _ hmapne
  refine ⟨by rw [estimatedTau]; ring, hlen, ?_, ?_, ?_⟩
  · intro j hj
    have h := h1 j (by simpa using hj)
    rwa [getD_map (fun z => -z.im) 0 0 curve j hj,
      getD_map (fun z => -z.im) 0 0 curve _ hlen] at h
  · intro j hj
    have hjlen : j < curve.length := lt_trans hj hlen
    have h := h2 j hj
    rwa [getD_map (fun z => -z.im) 0 0 curve j hjlen,
      getD_map (fun z => -z.im) 0 0 curve _ hlen] at h
  · intro c2 h
    rw [estimatedTau, estimatedTau, h]

/-- Witness for C2 on the one-point curve `[-i]`. -/
theorem C2_index_based_tau_witness :
    estimatedTau [(⟨0, -1⟩ : ℂ)]
      = (argmax ([(⟨0, -1⟩ : ℂ)].map (fun z => -z.im)) : ℝ) / (2 * Real.pi) :=
  (C2_index_based_tau [⟨0, -1⟩] (by simp)).1

/-- C5: `magnitudeAt1Hz` reads the curve at the index minimising the
distance to 1 Hz (ties to the lowest index), and when the grid holds the
exact value 1 it equals `|Z(1)|` computed directly by the cell model. -/
theorem C5_magnitude_at_1Hz (freq : List ℝ) (p : CellParameters) (hne : freq ≠ []) :
    idx1Hz freq < freq.length ∧
    (∀ j, j < freq.length →
      |freq.getD (idx1Hz freq) 0 - 1| ≤ |freq.getD j 0 - 1|) ∧
    (∀ j, j < idx1Hz freq →
      |freq.getD (idx1Hz freq) 0 - 1| < |freq.getD j 0 - 1|) ∧
    (∀ k, k < freq.length → freq.getD k 0 = 1 →
      magnitudeAt1Hz freq (cellCurve freq p) = Complex.abs (cell_impedance 1 p)) := by
  have hmapne : freq.map (fun f => |f - 1|) ≠ [] := by simpa using hne
  have hidx : idx1Hz freq = argmin (freq.map (fun f => |f - 1|)) := rfl
  have hlen : idx1Hz freq < freq.length := by
    have := argmin_lt_length _ hmapne
    rw [List.length_map] at this
    exact hidx ▸ this
  obtain ⟨h1, h2⟩ := argmin_spec _ hmapne
  refine ⟨hlen, ?_, ?_, ?_⟩
  · intro j hj
    have h := h1 j (by simpa using hj)
    rw [getD_map (fun f => |f - 1|) 0 0 freq j hj,
      getD_map (fun f => |f - 1|) 0 0 freq _ (hidx ▸ hlen)] at h
    rw [hidx]
    exact h
  · intro j hj
    have hjlen : j < freq.length := lt_trans hj hlen
    have h := h2 j (hidx ▸ hj)
    rw [getD_map (fun f => |f - 1|) 0 0 freq j hjlen,
      getD_map (fun f => |f - 1|) 0 0 freq _ (hidx ▸ hlen)] at h
    rw [hidx]
    exact h
  · intro k hk h1k
    have hle := h1 k (by simpa using hk)
    rw [getD_map (fun f => |f - 1|) 0 0 freq k hk,
      getD_map (fun f => |f - 1|) 0 0 freq _ (hidx ▸ hlen)] at hle
    rw [h1k] at hle
    simp only [sub_self, abs_zero] at hle
    have hone : freq.getD (argmin (freq.map (fun f => |f - 1|))) 0 = 1 := by
      have habs := abs_nonneg (freq.getD (argmin (freq.map (fun f => |f - 1|))) 0 - 1)
      have : |freq.getD (argmin (freq.map (fun f => |f - 1|))) 0 - 1| = 0 := le_antisymm hle habs
      have := abs_eq_zero.mp this
      linarith [sub_eq_zero.mp this]
    rw [magnitudeAt1Hz, cellCurve,
      getD_map (fun f => cell_impedance f p) 0 0 freq _ hlen, hidx, hone]

/-- Witness for C5 on the grid `[1]` (which contains the exact value 1). -/
theorem C5_magnitude_at_1Hz_witness :
    magnitudeAt1Hz [1] (cellCurve [1] ⟨1, 1, 1, 1⟩)
      = Complex.abs (cell_impedance 1 ⟨1, 1, 1, 1⟩) :=
  (C5_magnitude_at_1Hz [1] ⟨1, 1, 1, 1⟩ (by simp)).2.2.2 0 (by simp) (by simp)

/-- C7: for fixed strictly positive parameters, `Im Z → 0` and `Re Z → Rs`
as the frequency grows without bound: for every `ε > 0` there is `F` beyond
which both `|Im Z| < ε` and `|Re Z − Rs| < ε`. -/
theorem C7_high_frequency_limit (p : CellParameters)
    (hRs : 0 < p.Rs) (hRct : 0 < p.Rct) (hCdl : 0 < p.Cdl) (hsig : 0 < p.sigma)
    (ε : ℝ) (hε : 0 < ε) :
    ∃ F : ℝ, ∀ f : ℝ, F < f →
      |(cell_impedance f p).im| < ε ∧ |(cell_impedance f p).re - p.Rs| < ε := by
  have hπ := Real.pi_pos
  refine ⟨max (1 / (Real.pi * p.Cdl * ε)) (2 * p.sigma ^ 2 / (Real.pi * ε ^ 2)),
    fun f hf => ?_⟩
  have hF1 : 1 / (Real.pi * p.Cdl * ε) < f := lt_of_le_of_lt (le_max_left _ _) hf
  have hF2 : 2 * p.sigma ^ 2 / (Real.pi * ε ^ 2) < f := lt_of_le_of_lt (le_max_right _ _) hf
  have hfpos : 0 < f := lt_trans (by positivity) hF1
  have hw : 0 < omega f := omega_pos hfpos
  have hA : 1 / (omega f * p.Cdl) < ε / 2 := by
    rw [div_lt_div_iff (by positivity) (by norm_num)]
    have h1 : 1 < f * (Real.pi * p.Cdl * ε) := (div_lt_iff (by positivity)).mp hF1
    unfold omega
    nlinarith [h1]
  have hB : p.sigma / Real.sqrt (omega f) < ε / 2 := by
    have h2 : 2 * p.sigma ^ 2 < f * (Real.pi * ε ^ 2) := (div_lt_iff (by positivity)).mp hF2
    have hsq : (2 * p.sigma / ε) ^ 2 < omega f := by
      unfold omega
      rw [div_pow, div_lt_iff (by positivity)]
      nlinarith [h2]
    have hsqrt : 2 * p.sigma / ε < Real.sqrt (omega f) :=
      (Real.lt_sqrt (by positivity)).mpr hsq
    rw [div_lt_div_iff (Real.sqrt_pos.mpr hw) (by norm_num)]
    have hmul : ε * (2 * p.sigma / ε) < ε * Real.sqrt (omega f) :=
      mul_lt_mul_of_pos_left hsqrt hε
    have hcan : ε * (2 * p.sigma / ε) = 2 * p.sigma := by field_simp
    rw [hcan] at hmul
    linarith
  have hsplit : cell_impedance f p - (p.Rs : ℂ) = Z_parallel f p.Rct p.Cdl + Zw f p.sigma := by
    rw [cell_impedance]; ring
  have habsZp : Complex.abs (Z_parallel f p.Rct p.Cdl) ≤ 1 / (omega f * p.Cdl) := by
    rw [Z_parallel_eq, denom_eq, map_div₀, map_one]
    have him : omega f * p.Cdl ≤ Complex.abs (⟨1 / p.Rct, omega f * p.Cdl⟩ : ℂ) := by
      have h := Complex.abs_im_le_abs (⟨1 / p.Rct, omega f * p.Cdl⟩ : ℂ)
      calc omega f * p.Cdl ≤ |omega f * p.Cdl| := le_abs_self _
        _ ≤ _ := h
    exact one_div_le_one_div_of_le (mul_pos hw hCdl) him
  have habsZw : Complex.abs (Zw f p.sigma) = p.sigma / Real.sqrt (omega f) :=
    abs_Zw f p.sigma hfpos hsig.le
  have htotal : Complex.abs (cell_impedance f p - (p.Rs : ℂ))
      ≤ 1 / (omega f * p.Cdl) + p.sigma / Real.sqrt (omega f) := by
    rw [hsplit]
    calc Complex.abs (Z_parallel f p.Rct p.Cdl + Zw f p.sigma)
        ≤ Complex.abs (Z_parallel f p.Rct p.Cdl) + Complex.abs (Zw f p.sigma) :=
          Complex.abs.add_le _ _
      _ ≤ 1 / (omega f * p.Cdl) + p.sigma / Real.sqrt (omega f) := by
          rw [habsZw]; exact add_le_add_right habsZp _
  have hlt : Complex.abs (cell_impedance f p - (p.Rs : ℂ)) < ε :=
    lt_of_le_of_lt htotal (by linarith)
  constructor
  · have h1 := Complex.abs_im_le_abs (cell_impedance f p - (p.Rs : ℂ))
    rw [Complex.sub_im, Complex.ofReal_im, sub_zero] at h1
    exact lt_of_le_of_lt h1 hlt
  · have h1 := Complex.abs_re_le_abs (cell_impedance f p - (p.Rs : ℂ))
    rw [Complex.sub_re, Complex.ofReal_re] at h1
    exact lt_of_le_of_lt h1 hlt

/-- Witness for C7 at `p = (0.1, 1, 10⁻⁴, 0.1)` and `ε = 1/100`. -/
theorem C7_high_frequency_limit_witness :
    ∃ F : ℝ, ∀ f : ℝ, F < f →
      |(cell_impedance f ⟨1/10, 1, 1/10000, 1/10⟩).im| < 1/100 ∧
      |(cell_impedance f ⟨1/10, 1, 1/10000, 1/10⟩).re
          - (⟨1/10, 1, 1/10000, 1/10⟩ : CellParameters).Rs| < 1/100 :=
  C7_high_frequency_limit ⟨1/10, 1, 1/10000, 1/10⟩ (by norm_num : (0:ℝ) < 1/10)
    (by norm_num : (0:ℝ) < 1) (by norm_num : (0:ℝ) < 1/10000)
    (by norm_num : (0:ℝ) < 1/10) (1/100) (by norm_num)

lemma cellCurvesE_no_domainError (grid : List ℝ) :
    ∀ ps : List CellParameters, cellCurvesE grid ps ≠ Except.error PyError.domainError
  | [] => by simp [cellCurvesE]
  | p :: ps => by
    have ih := cellCurvesE_no_domainError grid ps
    simp only [cellCurvesE]
    rcases hc : cell_impedanceE grid p with e | c
    · have he : e = PyError.zeroDivision := by
        unfold cell_impedanceE at hc
        split at hc
        · exact (Except.error.injEq _ _).mp hc.symm ▸ rfl
        · cases hc
      subst he
      intro hcon
      injection hcon with h2
      exact PyError.noConfusion h2
    · rcases hrec : cellCurvesE grid ps with e2 | cs
      · rw [hrec] at ih
        intro hcon
        injection hcon with h2
        exact ih (by rw [h2])
      · intro hcon
        cases hcon

/-- C3 amended: the code performs no domain validation and no `DomainError`
exists.  For `Rct ≠ 0` the cell computation returns a value regardless of
the sign of `σ` or the frequency values; `Rct = 0` raises a Python
`ZeroDivisionError` (not a DomainError); the stack computation on an empty
cell list returns a result (numpy sums an empty list to zero) and never
produces a DomainError for any input. -/
theorem C3_no_domain_validation (grid : List ℝ) (p q : CellParameters)
    (ps : List CellParameters) (hp : p.Rct ≠ 0) (hq : q.Rct = 0) :
    cell_impedanceE grid p = .ok (cellCurve grid p) ∧
    cell_impedanceE grid q = .error .zeroDivision ∧
    computeStackE grid [] = .ok ([], []) ∧
    computeStackE grid ps ≠ .error .domainError := by
  refine ⟨?_, ?_, ?_, ?_⟩
  · unfold cell_impedanceE; rw [if_neg hp]
  · unfold cell_impedanceE; rw [if_pos hq]
  · rfl
  · unfold computeStackE
    rcases hrec : cellCurvesE grid ps with e | cs
    · have h := cellCurvesE_no_domainError grid ps
      rw [hrec] at h
      have he : e ≠ PyError.domainError := fun heq => h (by rw [heq])
      intro hcon
      injection hcon with h2
      exact he h2
    · intro hcon
      cases hcon

/-- Witness for C3's amended statement at `Rct = 1 ≠ 0` and `Rct = 0`. -/
theorem C3_no_domain_validation_witness :
    cell_impedanceE [1] ⟨1/10, 1, 1/10000, 1/10⟩
        = .ok (cellCurve [1] ⟨1/10, 1, 1/10000, 1/10⟩) ∧
    cell_impedanceE [1] ⟨1/10, 0, 1/10000, 1/10⟩ = .error .zeroDivision :=
  ⟨(C3_no_domain_validation [1] ⟨1/10, 1, 1/10000, 1/10⟩ ⟨1/10, 0, 1/10000, 1/10⟩ []
      (by norm_num : ((1:ℝ)) ≠ 0) rfl).1,
   (C3_no_domain_validation [1] ⟨1/10, 1, 1/10000, 1/10⟩ ⟨1/10, 0, 1/10000, 1/10⟩ []
      (by norm_num : ((1:ℝ)) ≠ 0) rfl).2.1⟩

/-- C3 counterexample: with `σ = −0.1 < 0` the cell computation succeeds
(no failure of any kind), and the stack computation on an empty parameter
list succeeds as well — the claimed DomainError failures do not occur. -/
theorem C3_counterexample :
    (cell_impedanceE [1] ⟨1/10, 1, 1/10000, -(1/10)⟩).isOk = true ∧
    (computeStackE [1] ([] : List CellParameters)).isOk = true := by
  constructor
  · unfold cell_impedanceE
    rw [if_neg (show (⟨1/10, 1, 1/10000, -(1/10)⟩ : CellParameters).Rct ≠ 0 by norm_num)]
    rfl
  · rfl

/-- C10: the UI layer always satisfies the core preconditions: the grid is
the fixed 300-point log-spaced sequence (nonempty, strictly increasing, all
positive), and the slider keeps the cell count in 1..5, so the cell list is
nonempty. -/
theorem C10_ui_preconditions (n : ℕ) (ps : ℕ → CellParameters)
    (h1 : 1 ≤ n) (h5 : n ≤ 5) :
    freqGrid.length = 300 ∧
    freqGrid ≠ [] ∧
    (∀ f ∈ freqGrid, 0 < f) ∧
    List.Pairwise (· < ·) freqGrid ∧
    uiCellParams n ps ≠ [] ∧
    1 ≤ (uiCellParams n ps).length ∧ (uiCellParams n ps).length ≤ 5 := by
  have hlen : freqGrid.length = 300 := by
    rw [freqGrid, List.length_map, List.length_range]
  have hclen : (uiCellParams n ps).length = n := by
    rw [uiCellParams, List.length_map, List.length_range]
  refine ⟨hlen, ?_, ?_, ?_, ?_, ?_, ?_⟩
  · intro h; rw [h] at hlen; simp at hlen
  · intro f hf
    rw [freqGrid] at hf
    obtain ⟨k, _, rfl⟩ := List.mem_map.mp hf
    exact Real.rpow_pos_of_pos (by norm_num) _
  · rw [freqGrid, List.pairwise_map]
    apply List.Pairwise.imp ?_ (List.pairwise_lt_range 300)
    intro a b hab
    apply (Real.rpow_lt_rpow_left_iff (by norm_num : (1:ℝ) < 10)).mpr
    have hcast : (a : ℝ) < (b : ℝ) := by exact_mod_cast hab
    linarith
  · intro h; rw [h] at hclen; simp at hclen; omega
  · omega
  · omega

/-- Witness for C10 at `n = 3` identical default cells. -/
theorem C10_ui_preconditions_witness :
    freqGrid.length = 300 ∧ uiCellParams 3 (fun _ => ⟨1, 1, 1, 1⟩) ≠ [] :=
  ⟨(C10_ui_preconditions 3 (fun _ => ⟨1, 1, 1, 1⟩) (by norm_num) (by norm_num)).1,
   (C10_ui_preconditions 3 (fun _ => ⟨1, 1, 1, 1⟩) (by norm_num) (by norm_num)).2.2.2.2.1⟩

end EIS
